import Mathlib

/-!
Verification of the redtooth core against its natural-language specification.

The development shallowly embeds the packet codec (`src/protocol/packet.rs`),
the peer discovery registry (`src/peer_discoverer.rs`, `src/peer_discoverer/local.rs`,
`src/discovery/local.rs`) and the file sender (`src/transfer/sender.rs`,
`src/sender.rs`).

Modelling conventions:
- a byte is a `Nat` (values 0–255 on the wire);
- a Rust `String` is represented by its UTF-8 byte sequence (`List Nat`),
  so splitting at ASCII delimiter bytes coincides with Rust's `char`-level
  splitting on any valid UTF-8 string (ASCII bytes never occur inside a
  multi-byte UTF-8 sequence);
- `HashMap<String, String>` is represented by an association list in
  iteration order; `insert` replaces the binding of an existing key in place,
  as `HashMap::insert` does observationally;
- fallible operations return `Except`/`Option`; a Rust panic (`unwrap`,
  `assert!`) is an explicit outcome constructor.
-/

namespace Redtooth

/-- A single byte of the wire format, as an unbounded natural number
(all on-wire values are < 256). -/
abbrev Byte := Nat

/-- A byte string. -/
abbrev Bytes := List Byte

/-- `SECTIONS_SEPARATOR : &[u8; 2] = b"::"` from `src/protocol/packet.rs`. -/
def SECTIONS_SEPARATOR : Bytes := [58, 58]

/-- `HEADER_NAME_VALUE_SEPARATOR = '='` (byte value). -/
def HEADER_NAME_VALUE_SEPARATOR : Byte := 61

/-- The newline byte used by `writeln!`. -/
def NEWLINE : Byte := 10

/-- The carriage-return byte stripped per line by Rust's `str::lines`. -/
def CARRIAGE_RETURN : Byte := 13

/-! ## UTF-8 validity (`str::from_utf8` from the Rust standard library)

`Packet::from_bytes` checks that the header section is valid UTF-8.
`validUtf8` accepts exactly the RFC 3629 well-formed byte sequences, matching
`core::str::from_utf8` (no overlong forms, no surrogates, max U+10FFFF). -/

/-- A UTF-8 continuation byte: `0x80–0xBF`. -/
def isCont (b : Byte) : Bool := 128 ≤ b && b ≤ 191

/-- Allowed range of the first continuation byte of a 3-byte sequence,
given the lead byte (narrowed for `0xE0` and `0xED`). -/
def cont3fst (lead c : Byte) : Bool :=
  if lead = 224 then 160 ≤ c && c ≤ 191
  else if lead = 237 then 128 ≤ c && c ≤ 159
  else isCont c

/-- Allowed range of the first continuation byte of a 4-byte sequence,
given the lead byte (narrowed for `0xF0` and `0xF4`). -/
def cont4fst (lead c : Byte) : Bool :=
  if lead = 240 then 144 ≤ c && c ≤ 191
  else if lead = 244 then 128 ≤ c && c ≤ 143
  else isCont c

/-- Tail of a 2-byte sequence: one continuation byte. -/
def utf8Tail1 : Bytes → Option Bytes
  | c :: r' => if isCont c then some r' else none
  | [] => none

/-- Tail of a 3-byte sequence with lead byte `b`: two continuation bytes,
the first range-narrowed for `0xE0`/`0xED`. -/
def utf8Tail2 (b : Byte) : Bytes → Option Bytes
  | c :: d :: r' => if cont3fst b c && isCont d then some r' else none
  | _ => none

/-- Tail of a 4-byte sequence with lead byte `b`: three continuation
bytes, the first range-narrowed for `0xF0`/`0xF4`. -/
def utf8Tail3 (b : Byte) : Bytes → Option Bytes
  | c :: d :: e :: r' => if cont4fst b c && isCont d && isCont e then some r' else none
  | _ => none

/-- Consumes one well-formed UTF-8 scalar encoding from the front,
returning the remaining bytes, or `none` when the front is ill-formed. -/
def utf8Step : Bytes → Option Bytes
  | [] => none
  | b :: r =>
    if b ≤ 127 then some r
    else if 194 ≤ b && b ≤ 223 then utf8Tail1 r
    else if 224 ≤ b && b ≤ 239 then utf8Tail2 b r
    else if 240 ≤ b && b ≤ 244 then utf8Tail3 b r
    else none

/-- Fuelled iteration of `utf8Step`; the fuel only serves termination and
is irrelevant as soon as it bounds the length (`validUtf8Aux_fuel`). -/
def validUtf8Aux : Nat → Bytes → Bool
  | _, [] => true
  | 0, _ :: _ => false
  | fuel + 1, b :: r =>
    match utf8Step (b :: r) with
    | some rest => validUtf8Aux fuel rest
    | none => false

/-- RFC 3629 UTF-8 validity of a byte string, as checked by
`core::str::from_utf8` (no overlong forms, no surrogates, max U+10FFFF). -/
def validUtf8 (l : Bytes) : Bool := validUtf8Aux l.length l

/-! ## Byte-string splitting helpers (Rust `str` methods) -/

/-- Splits a byte string at every occurrence of `sep`; always returns one
more chunk than there are separators (Rust `str::split`). -/
def splitOnByte (sep : Byte) : Bytes → List Bytes
  | [] => [[]]
  | b :: rest =>
    if b = sep then [] :: splitOnByte sep rest
    else
      match splitOnByte sep rest with
      | c :: cs => (b :: c) :: cs
      | [] => [[b]]

/-- Removes one trailing carriage return, as each line yielded by
`str::lines` has its trailing `\r` stripped. -/
def stripTrailingCR (l : Bytes) : Bytes :=
  if l.getLast? = some CARRIAGE_RETURN then l.dropLast else l

/-- Rust `str::lines`: split at `\n` dropping a final empty chunk
(the final line ending is optional), then strip one trailing `\r`
from each line. -/
def rustLines (s : Bytes) : List Bytes :=
  let parts := splitOnByte NEWLINE s
  let parts := if parts.getLast? = some [] then parts.dropLast else parts
  parts.map stripTrailingCR

/-- Rust `str::split_once`: splits at the first occurrence of `sep`,
returning the pieces before and after it, or `none` if absent. -/
def splitOnceAt (sep : Byte) : Bytes → Option (Bytes × Bytes)
  | [] => none
  | b :: rest =>
    if b = sep then some ([], rest)
    else (splitOnceAt sep rest).map (fun p => (b :: p.1, p.2))

/-- Index of the first window of two consecutive bytes equal to
`SECTIONS_SEPARATOR`, as computed by
`bytes.windows(2).position(|w| w == SECTIONS_SEPARATOR)`. -/
def findSep : Bytes → Option Nat
  | [] => none
  | [_] => none
  | a :: b :: rest =>
    if a = 58 && b = 58 then some 0
    else (findSep (b :: rest)).map (· + 1)

/-- Number of (possibly overlapping) windows equal to the section
separator in a byte string. -/
def countSep : Bytes → Nat
  | [] => 0
  | [_] => 0
  | a :: b :: rest =>
    (if a = 58 && b = 58 then 1 else 0) + countSep (b :: rest)

/-- True when some window of two consecutive bytes equals the section
separator (an "embedded separator sequence" in the spec's words). -/
def hasSepPair : Bytes → Bool
  | [] => false
  | [_] => false
  | a :: b :: rest => (a = 58 && b = 58) || hasSepPair (b :: rest)

/-- The separator occurs as a window starting at index `i`. -/
def sepAt (bytes : Bytes) (i : Nat) : Prop :=
  bytes[i]? = some 58 ∧ bytes[i + 1]? = some 58

instance (bytes : Bytes) (i : Nat) : Decidable (sepAt bytes i) := by
  unfold sepAt; infer_instance

/-! ## The packet codec (`src/protocol/packet.rs`) -/

/-- `PacketParseError` from `src/protocol/packet.rs` (the `Utf8Error`
detail payload is not modelled). -/
inductive PacketParseError
  | missingSectionsSeparator
  | invalidUtf8
deriving DecidableEq, Repr

/-- `Packet`: a header map (association list in `HashMap` iteration order,
keys unique by construction) plus an optional byte payload. Header names
and values are Rust `String`s, represented by their UTF-8 bytes. -/
structure Packet where
  headers : List (Bytes × Bytes)
  payload : Option Bytes
deriving DecidableEq, Repr

/-- `Packet::new`: an empty packet. -/
def Packet.new : Packet := { headers := [], payload := none }

/-- `HashMap::insert`: replaces the binding of an existing key in place,
otherwise adds a new binding. -/
def insertHeader : List (Bytes × Bytes) → Bytes → Bytes → List (Bytes × Bytes)
  | [], name, value => [(name, value)]
  | (n, v) :: rest, name, value =>
    if n = name then (name, value) :: rest
    else (n, v) :: insertHeader rest name value

/-- `HashMap::get` on the association-list representation. -/
def lookupHeader : List (Bytes × Bytes) → Bytes → Option Bytes
  | [], _ => none
  | (n, v) :: rest, name => if n = name then some v else lookupHeader rest name

/-- `Packet::set_header`. -/
def Packet.set_header (p : Packet) (name value : Bytes) : Packet :=
  { p with headers := insertHeader p.headers name value }

/-- `Packet::set_payload`. -/
def Packet.set_payload (p : Packet) (payload : Bytes) : Packet :=
  { p with payload := some payload }

/-- `Packet::get_header`. -/
def Packet.get_header (p : Packet) (name : Bytes) : Option Bytes :=
  lookupHeader p.headers name

/-- `Packet::get_payload`. -/
def Packet.get_payload (p : Packet) : Option Bytes :=
  p.payload

/-- The text `name=value` of one header line. -/
def rawLine (nv : Bytes × Bytes) : Bytes :=
  nv.1 ++ HEADER_NAME_VALUE_SEPARATOR :: nv.2

/-- One header line as written by
`writeln!(headers, "{name}{HEADER_NAME_VALUE_SEPARATOR}{value}")`:
the `name=value` text followed by a newline. -/
def headerLine (nv : Bytes × Bytes) : Bytes :=
  rawLine nv ++ [NEWLINE]

/-- The header section of the serialized packet: all header lines in
iteration order. -/
def headerSection (headers : List (Bytes × Bytes)) : Bytes :=
  (headers.map headerLine).flatten

/-- `Packet::as_bytes`: header lines, then the section separator, then the
payload bytes (nothing when the payload is absent). -/
def Packet.as_bytes (p : Packet) : Bytes :=
  headerSection p.headers ++ SECTIONS_SEPARATOR ++
    (match p.payload with
     | some payload => payload
     | none => [])

/-- Header lines parsed from the decoded header section:
`lines()`, then `filter_map(split_once('='))`. -/
def parsedHeaderLines (s : Bytes) : List (Bytes × Bytes) :=
  (rustLines s).filterMap (splitOnceAt HEADER_NAME_VALUE_SEPARATOR)

/-- `collect::<HashMap<_, _>>()` over parsed `(name, value)` pairs:
repeated insertion, so a duplicated name keeps its last value. -/
def collectHeaders (l : List (Bytes × Bytes)) : List (Bytes × Bytes) :=
  l.foldl (fun m nv => insertHeader m nv.1 nv.2) []

/-- `Packet::from_bytes`: find the first occurrence of the section
separator (`MissingSectionsSeparator` when absent), require the bytes
before it to be valid UTF-8 (`InvalidUtf8` otherwise), parse them
line-by-line into the header map, and take the bytes after the separator
as payload (`bytes.get(i + 2..)`, which is `Some` whenever the range
start does not exceed the length). -/
def Packet.from_bytes (bytes : Bytes) : Except PacketParseError Packet :=
  match findSep bytes with
  | none => .error .missingSectionsSeparator
  | some i =>
    if validUtf8 (bytes.take i) then
      .ok { headers := collectHeaders (parsedHeaderLines (bytes.take i)),
            payload := if i + 2 ≤ bytes.length then some (bytes.drop (i + 2)) else none }
    else .error .invalidUtf8

/-! ## Peer identifiers, addresses and the registry
(`src/protocol/mod.rs`, `src/peer_discoverer.rs`, `src/discovery/mod.rs`) -/

/-- `PeerID = u64`; on-wire parsing enforces values below `2^64`. -/
abbrev PeerID := Nat

/-- `std::net::IpAddr`. -/
inductive IpAddr
  | v4 (a b c d : Nat)
  | v6 (segs : List Nat)
deriving DecidableEq, Repr

/-- `IpAddr::is_unspecified`: all-zero address (0.0.0.0, or `::`). -/
def IpAddr.isUnspecified : IpAddr → Bool
  | .v4 a b c d => a = 0 && b = 0 && c = 0 && d = 0
  | .v6 segs => segs.all (· = 0)

/-- `PeerAddr = SocketAddr`: an IP address and a port. -/
structure PeerAddr where
  ip : IpAddr
  port : Nat
deriving DecidableEq, Repr

/-- `SocketAddr::set_ip`. -/
def PeerAddr.set_ip (a : PeerAddr) (ip : IpAddr) : PeerAddr := { a with ip := ip }

/-- `PeerMap = HashMap<PeerID, PeerAddr>` as an association list in
iteration order (keys unique by construction). -/
abbrev PeerMap := List (PeerID × PeerAddr)

/-- `HashMap::insert` on the registry: replaces the binding of an existing
id in place, otherwise adds a new binding. -/
def insertPeer : PeerMap → PeerID → PeerAddr → PeerMap
  | [], id, addr => [(id, addr)]
  | (k, v) :: rest, id, addr =>
    if k = id then (id, addr) :: rest else (k, v) :: insertPeer rest id addr

/-- `HashMap::get` on the registry. -/
def lookupPeer : PeerMap → PeerID → Option PeerAddr
  | [], _ => none
  | (k, v) :: rest, id => if k = id then some v else lookupPeer rest id

/-- Number of registry entries stored under a given id. -/
def countPeer (m : PeerMap) (id : PeerID) : Nat :=
  m.countP (fun kv => decide (kv.1 = id))

/-- `PeerDiscoverer::new` wraps `PeerMap::new()`: the registry starts
empty. The `Arc<Mutex<_>>` wrapper is modelled away: in this
single-threaded embedding every `lock()` succeeds uncontended and
unpoisoned, so `lock().ok()` always yields the guarded map. -/
def newPeerMap : PeerMap := []

/-- `PeerDiscoverer::get_discovered_peer_ids`:
`(!peer_map.is_empty()).then(|| peer_map.keys().copied().collect())`. -/
def get_discovered_peer_ids (peers : PeerMap) : Option (List PeerID) :=
  if peers.isEmpty then none else some (peers.map Prod.fst)

/-- `PeerDiscoverer::get_discovered_peer_addrs`:
`(!peer_map.is_empty()).then(|| peer_map.values().copied().collect())`. -/
def get_discovered_peer_addrs (peers : PeerMap) : Option (List PeerAddr) :=
  if peers.isEmpty then none else some (peers.map Prod.snd)

/-- `PeerDiscoverer::find_peer_addr_by_id`. -/
def find_peer_addr_by_id (peers : PeerMap) (id : PeerID) : Option PeerAddr :=
  lookupPeer peers id

/-! ## The discovery listener (`src/discovery/local.rs`,
`src/peer_discoverer/local.rs`) -/

/-- A decoded announcement (`src/discovery/announcement.rs`). -/
structure Announcement where
  peer_id : PeerID
  peer_addr : PeerAddr
deriving DecidableEq, Repr

/-- The address-resolution step of `discover_peers`: an unspecified
announced IP (0.0.0.0) is replaced by the IP the datagram came from. -/
def resolveAnnouncedAddr (addr : PeerAddr) (sender_ip : IpAddr) : PeerAddr :=
  if addr.ip.isUnspecified then addr.set_ip sender_ip else addr

/-- One iteration of the `discover_peers` loop body after a successful
decode: resolve the announced address against the datagram's sender IP,
then upsert `id -> address` into the registry (`try_lock` modelled as
succeeding: no contention, no poison). -/
def processAnnouncement (m : PeerMap) (a : Announcement) (sender_ip : IpAddr) : PeerMap :=
  insertPeer m a.peer_id (resolveAnnouncedAddr a.peer_addr sender_ip)

/-- Accumulate-digits parser shared by the numeric `from_str`
implementations. -/
def parseDigitsAux : Nat → Bytes → Option Nat
  | acc, [] => some acc
  | acc, d :: t =>
    if 48 ≤ d && d ≤ 57 then parseDigitsAux (acc * 10 + (d - 48)) t else none

/-- All-decimal-digits parse of a non-empty byte string. -/
def parseDigits : Bytes → Option Nat
  | [] => none
  | l => parseDigitsAux 0 l

/-- `u64::from_str`: optional leading `+`, at least one ASCII digit, and
the value must fit in 64 bits (overflow is an error, not a wrap). -/
def parseU64 (s : Bytes) : Option Nat :=
  let s := match s with
    | 43 :: rest => rest
    | _ => s
  match parseDigits s with
  | some n => if n < 2 ^ 64 then some n else none
  | none => none

/-- One dotted-decimal IPv4 octet as read by `Ipv4Addr::from_str`:
one to three digits, no leading zero, value at most 255. -/
def parseU8Octet (s : Bytes) : Option Nat :=
  match s with
  | [] => none
  | [48] => some 0
  | 48 :: _ :: _ => none
  | _ =>
    match parseDigits s with
    | some n => if s.length ≤ 3 && n ≤ 255 then some n else none
    | none => none

/-- `Ipv4Addr::from_str`: four octets separated by dots. -/
def parseIpv4 (s : Bytes) : Option IpAddr :=
  match splitOnByte 46 s with
  | [a, b, c, d] => do
    let a' ← parseU8Octet a
    let b' ← parseU8Octet b
    let c' ← parseU8Octet c
    let d' ← parseU8Octet d
    pure (IpAddr.v4 a' b' c' d')
  | _ => none

/-- The port component as read by `SocketAddr::from_str`: decimal digits
(zero prefix allowed), value must fit in 16 bits. -/
def parseU16Port (s : Bytes) : Option Nat :=
  match s with
  | [] => none
  | _ =>
    match parseDigits s with
    | some n => if n < 65536 then some n else none
    | none => none

/-- `SocketAddr::from_str` restricted to IPv4 `a.b.c.d:port` literals
(bracketed IPv6 literals are not modelled; no claim depends on them). -/
def parsePeerAddr (s : Bytes) : Option PeerAddr :=
  match splitOnceAt 58 s with
  | some (ipPart, portPart) => do
    let ip ← parseIpv4 ipPart
    let port ← parseU16Port portPart
    pure { ip := ip, port := port }
  | none => none

/-- A Rust panic outcome (an `unwrap` failure aborts the thread). -/
inductive RustPanic
  | fromUtf8Unwrap
deriving DecidableEq, Repr

/-- `parse_packet` from `src/peer_discoverer/local.rs`: converts the
datagram with `String::from_utf8(...).unwrap()` — a panic when the bytes
are not valid UTF-8 — then splits at `;` and parses the id
(`u64`) and address (`SocketAddr`); a missing piece or failed parse
yields `None`. -/
def parse_packet (packet : Bytes) : Except RustPanic (Option (PeerID × PeerAddr)) :=
  if validUtf8 packet then
    let parts := splitOnByte 59 packet
    .ok (do
      let idPart ← parts[0]?
      let id ← parseU64 idPart
      let addrPart ← parts[1]?
      let addr ← parsePeerAddr addrPart
      pure (id, addr))
  else .error .fromUtf8Unwrap

/-! ## File packets and the sender (`src/transfer/mod.rs`,
`src/transfer/sender.rs`, `src/sender.rs`) -/

/-- The UTF-8 bytes of the header name `file_name`. -/
def fileNameHeader : Bytes := [102, 105, 108, 101, 95, 110, 97, 109, 101]

/-- The UTF-8 bytes of the default file name `undefined`. -/
def undefinedName : Bytes := [117, 110, 100, 101, 102, 105, 110, 101, 100]

/-- `path.file_name().unwrap_or(path.as_os_str())`: the last normal
component of the path (`/`-separated; empty and `.` components are
normalized away), or the whole path when there is none or it is `..`. -/
def rustFileName (path : Bytes) : Bytes :=
  let comps := (splitOnByte 47 path).filter (fun c => !(c = [] || c = [46]))
  match comps.getLast? with
  | none => path
  | some c => if c = [46, 46] then path else c

/-- `FilePacket`: a wrapper around `Packet` for file transfers. -/
structure FilePacket where
  pkt : Packet
deriving DecidableEq, Repr

/-- `FilePacket::from_path`, with the file contents supplied by the
environment (`fs::read` is performed by the caller model). -/
def FilePacket.from_path (path contents : Bytes) : FilePacket :=
  { pkt := (Packet.new.set_header fileNameHeader (rustFileName path)).set_payload contents }

/-- `FilePacket::from_bytes`. -/
def FilePacket.from_bytes (bytes : Bytes) : Except PacketParseError FilePacket :=
  (Packet.from_bytes bytes).map (fun p => { pkt := p })

/-- `FilePacket::get_file_name`:
`self.0.get_header("file_name").unwrap_or("undefined")`. -/
def FilePacket.get_file_name (fp : FilePacket) : Bytes :=
  (fp.pkt.get_header fileNameHeader).getD undefinedName

/-- `FilePacket::get_contents`:
`self.0.get_payload().unwrap_or_default()`. -/
def FilePacket.get_contents (fp : FilePacket) : Bytes :=
  fp.pkt.get_payload.getD []

/-- `FilePacket::as_owned_bytes`. -/
def FilePacket.as_owned_bytes (fp : FilePacket) : Bytes :=
  fp.pkt.as_bytes

/-- `io::Error` values distinguished only by an abstract tag. -/
inductive IoErr
  | connectionRefused
  | writeFailed
  | readFailed
  | other (code : Nat)
deriving DecidableEq, Repr

/-- The environment a send runs in: the outcomes of `path.is_file()`, of
`fs::read`, and of `TcpStream::connect` + `write_all` per address (the
first error encountered at that address, if any). -/
structure SendEnv where
  is_file : Bytes → Bool
  read_file : Bytes → Except IoErr Bytes
  net : PeerAddr → Option IoErr

/-- Result of `send_file_to_all`: Rust's `io::Result<()>` plus an explicit
outcome for the `assert!(path.is_file())` panic. -/
inductive SendResult
  | panicked
  | ok
  | err (e : IoErr)
deriving DecidableEq, Repr

/-- The `for addr in addrs { TcpStream::connect(addr)?; write_all(..)?; }`
loop, paired with the list of addresses a connection was attempted to:
the `?` operator returns the first failure immediately. -/
def sendLoop (env : SendEnv) : List PeerAddr → SendResult × List PeerAddr
  | [] => (.ok, [])
  | addr :: rest =>
    match env.net addr with
    | some e => (.err e, [addr])
    | none =>
      let r := sendLoop env rest
      (r.1, addr :: r.2)

/-- `send_file_to_all` (`src/transfer/sender.rs`; `src/sender.rs` has the
same control flow): `assert!(path.is_file())` — a panic when it does not
hold — then read the file (propagating the I/O error), build the file
packet bytes once, and run the send loop. The second component is the
list of attempted addresses. -/
def send_file_to_all (env : SendEnv) (addrs : List PeerAddr) (path : Bytes) :
    SendResult × List PeerAddr :=
  if env.is_file path then
    match env.read_file path with
    | .error e => (.err e, [])
    | .ok contents =>
      let _data := (FilePacket.from_path path contents).as_owned_bytes
      sendLoop env addrs
  else (.panicked, [])

/-- `send_file_to`: the one-address specialization. -/
def send_file_to (env : SendEnv) (addr : PeerAddr) (path : Bytes) :
    SendResult × List PeerAddr :=
  send_file_to_all env [addr] path

/-! ## Lemmas about UTF-8 validity -/

theorem utf8Step_length {l r : Bytes} (h : utf8Step l = some r) :
    r.length < l.length := by
  match l with
  | [] => simp [utf8Step] at h
  | b :: t =>
    simp only [utf8Step] at h
    split_ifs at h with h1 h2 h3 h4
    · cases h; simp
    · match t with
      | [] => simp [utf8Tail1] at h
      | c :: t' =>
        simp only [utf8Tail1] at h
        split_ifs at h
        cases h; simp; omega
    · match t with
      | [] => simp [utf8Tail2] at h
      | [c] => simp [utf8Tail2] at h
      | c :: d :: t' =>
        simp only [utf8Tail2] at h
        split_ifs at h
        cases h; simp; omega
    · match t with
      | [] => simp [utf8Tail3] at h
      | [c] => simp [utf8Tail3] at h
      | [c, d] => simp [utf8Tail3] at h
      | c :: d :: e :: t' =>
        simp only [utf8Tail3] at h
        split_ifs at h
        cases h; simp; omega

theorem utf8Step_append {a r : Bytes} (b : Bytes) (h : utf8Step a = some r) :
    utf8Step (a ++ b) = some (r ++ b) := by
  match a with
  | [] => simp [utf8Step] at h
  | x :: t =>
    rw [List.cons_append]
    simp only [utf8Step] at h ⊢
    split_ifs at h ⊢ with h1 h2 h3 h4
    · cases h; rfl
    · match t with
      | [] => simp [utf8Tail1] at h
      | c :: t' =>
        simp only [utf8Tail1, List.cons_append] at h ⊢
        split_ifs at h ⊢
        cases h; rfl
    · match t with
      | [] => simp [utf8Tail2] at h
      | [c] => simp [utf8Tail2] at h
      | c :: d :: t' =>
        simp only [utf8Tail2, List.cons_append] at h ⊢
        split_ifs at h ⊢
        cases h; rfl
    · match t with
      | [] => simp [utf8Tail3] at h
      | [c] => simp [utf8Tail3] at h
      | [c, d] => simp [utf8Tail3] at h
      | c :: d :: e :: t' =>
        simp only [utf8Tail3, List.cons_append] at h ⊢
        split_ifs at h ⊢
        cases h; rfl

theorem validUtf8Aux_fuel : ∀ (fuel : Nat) (l : Bytes), l.length ≤ fuel →
    validUtf8Aux fuel l = validUtf8 l
  | _, [], _ => by simp [validUtf8, validUtf8Aux]
  | 0, b :: r, h => by simp at h
  | fuel + 1, b :: r, h => by
    rw [validUtf8]
    simp only [List.length_cons, validUtf8Aux]
    match hs : utf8Step (b :: r) with
    | some rest =>
      have hlt := utf8Step_length hs
      have h1 : rest.length ≤ fuel := by simp at hlt h ⊢; omega
      have h2 : rest.length ≤ r.length := by simp at hlt; omega
      change validUtf8Aux fuel rest = validUtf8Aux r.length rest
      rw [validUtf8Aux_fuel fuel rest h1, validUtf8Aux_fuel r.length rest h2]
    | none => change false = false; rfl

theorem validUtf8_step {b : Byte} {r rest : Bytes}
    (hs : utf8Step (b :: r) = some rest) :
    validUtf8 (b :: r) = validUtf8 rest := by
  rw [validUtf8]
  simp only [List.length_cons, validUtf8Aux, hs]
  exact validUtf8Aux_fuel r.length rest (by have := utf8Step_length hs; simp at this; omega)

theorem validUtf8_step_none {b : Byte} {r : Bytes}
    (hs : utf8Step (b :: r) = none) :
    validUtf8 (b :: r) = false := by
  rw [validUtf8]
  simp only [List.length_cons, validUtf8Aux, hs]

theorem validUtf8_append : ∀ (a b : Bytes), validUtf8 a = true →
    validUtf8 (a ++ b) = validUtf8 b
  | [], b, _ => by simp
  | x :: t, b, h => by
    match hs : utf8Step (x :: t) with
    | some rest =>
      have hlt := utf8Step_length hs
      rw [validUtf8_step hs] at h
      rw [List.cons_append]
      rw [validUtf8_step (show utf8Step (x :: (t ++ b)) = some (rest ++ b) from utf8Step_append b hs)]
      exact validUtf8_append rest b h
    | none => rw [validUtf8_step_none hs] at h; exact absurd h (by simp)
termination_by a _ _ => a.length
decreasing_by
  have := utf8Step_length hs
  simpa using this

theorem validUtf8_cons_ascii {b : Byte} (r : Bytes) (h : b ≤ 127) :
    validUtf8 (b :: r) = validUtf8 r := by
  apply validUtf8_step
  simp [utf8Step, h]

/-! ## Lemmas about splitting, header parsing and header collection -/

theorem splitOnByte_not_mem {sep : Byte} : ∀ {x : Bytes}, sep ∉ x →
    splitOnByte sep x = [x]
  | [], _ => rfl
  | b :: t, h => by
    have hb : ¬(b = sep) := fun he => h (by rw [← he]; exact List.mem_cons_self b t)
    have ht : sep ∉ t := fun hm => h (List.mem_cons_of_mem b hm)
    simp only [splitOnByte, if_neg hb, splitOnByte_not_mem ht]

theorem splitOnByte_append_sep {sep : Byte} : ∀ {x : Bytes} (r : Bytes), sep ∉ x →
    splitOnByte sep (x ++ sep :: r) = x :: splitOnByte sep r
  | [], r, _ => by simp [splitOnByte]
  | b :: t, r, h => by
    have hb : ¬(b = sep) := fun he => h (by rw [← he]; exact List.mem_cons_self b t)
    have ht : sep ∉ t := fun hm => h (List.mem_cons_of_mem b hm)
    rw [List.cons_append]
    simp only [splitOnByte, if_neg hb, splitOnByte_append_sep r ht]

theorem newline_not_mem_rawLine {nv : Bytes × Bytes}
    (h1 : NEWLINE ∉ nv.1) (h2 : NEWLINE ∉ nv.2) : NEWLINE ∉ rawLine nv := by
  intro hm
  rcases List.mem_append.mp hm with hl | hr
  · exact h1 hl
  · rcases List.mem_cons.mp hr with he | hv
    · exact absurd he (by simp [NEWLINE, HEADER_NAME_VALUE_SEPARATOR])
    · exact h2 hv

theorem headerSection_cons (nv : Bytes × Bytes) (t : List (Bytes × Bytes)) :
    headerSection (nv :: t) = rawLine nv ++ NEWLINE :: headerSection t := by
  simp [headerSection, headerLine, List.append_assoc]

theorem splitOnByte_headerSection : ∀ {hs : List (Bytes × Bytes)},
    (∀ nv ∈ hs, NEWLINE ∉ nv.1 ∧ NEWLINE ∉ nv.2) →
    splitOnByte NEWLINE (headerSection hs) = hs.map rawLine ++ [[]]
  | [], _ => by simp [headerSection, splitOnByte]
  | nv :: t, h => by
    have hnv := h nv (List.mem_cons_self nv t)
    have ht : ∀ x ∈ t, NEWLINE ∉ x.1 ∧ NEWLINE ∉ x.2 :=
      fun x hx => h x (List.mem_cons_of_mem nv hx)
    rw [headerSection_cons, splitOnByte_append_sep _ (newline_not_mem_rawLine hnv.1 hnv.2),
      splitOnByte_headerSection ht]
    simp

theorem getLast?_cons_ne_nil {c : Byte} {t : Bytes} : (c :: t).getLast? ≠ none := by
  match t with
  | [] => simp
  | d :: t' => rw [List.getLast?_cons_cons]; exact getLast?_cons_ne_nil

theorem stripTrailingCR_rawLine : ∀ {nv : Bytes × Bytes},
    nv.2.getLast? ≠ some CARRIAGE_RETURN →
    stripTrailingCR (rawLine nv) = rawLine nv := by
  intro ⟨n, v⟩ h
  rw [stripTrailingCR, if_neg]
  rw [rawLine, List.getLast?_append]
  match v, h with
  | [], _ => simp [CARRIAGE_RETURN, HEADER_NAME_VALUE_SEPARATOR]
  | c :: t, h =>
    rw [List.getLast?_cons_cons]
    simp only at h
    match hg : (c :: t).getLast? with
    | none => exact absurd hg getLast?_cons_ne_nil
    | some x =>
      rw [hg] at h
      simp only [Option.or_some]
      exact h

theorem rustLines_headerSection {hs : List (Bytes × Bytes)}
    (hnl : ∀ nv ∈ hs, NEWLINE ∉ nv.1 ∧ NEWLINE ∉ nv.2)
    (hcr : ∀ nv ∈ hs, nv.2.getLast? ≠ some CARRIAGE_RETURN) :
    rustLines (headerSection hs) = hs.map rawLine := by
  rw [rustLines]
  simp only [splitOnByte_headerSection hnl]
  rw [List.getLast?_concat, if_pos rfl, List.dropLast_concat, List.map_map]
  exact List.map_congr_left (fun nv hnv => stripTrailingCR_rawLine (hcr nv hnv))

theorem splitOnceAt_append {sep : Byte} : ∀ {n : Bytes} (v : Bytes), sep ∉ n →
    splitOnceAt sep (n ++ sep :: v) = some (n, v)
  | [], v, _ => by simp [splitOnceAt]
  | b :: t, v, h => by
    have hb : ¬(b = sep) := fun he => h (by rw [← he]; exact List.mem_cons_self b t)
    have ht : sep ∉ t := fun hm => h (List.mem_cons_of_mem b hm)
    rw [List.cons_append]
    simp only [splitOnceAt, if_neg hb, splitOnceAt_append v ht]
    rfl

theorem filterMap_id_of_some {α : Type} (f : α → Option α) : ∀ (l : List α),
    (∀ x ∈ l, f x = some x) → l.filterMap f = l
  | [], _ => rfl
  | a :: t, h => by
    rw [List.filterMap_cons, h a (List.mem_cons_self a t),
      filterMap_id_of_some f t (fun x hx => h x (List.mem_cons_of_mem a hx))]

theorem parsedHeaderLines_headerSection {hs : List (Bytes × Bytes)}
    (hnl : ∀ nv ∈ hs, NEWLINE ∉ nv.1 ∧ NEWLINE ∉ nv.2)
    (hcr : ∀ nv ∈ hs, nv.2.getLast? ≠ some CARRIAGE_RETURN)
    (heq : ∀ nv ∈ hs, HEADER_NAME_VALUE_SEPARATOR ∉ nv.1) :
    parsedHeaderLines (headerSection hs) = hs := by
  rw [parsedHeaderLines, rustLines_headerSection hnl hcr, List.filterMap_map]
  exact filterMap_id_of_some _ hs (fun nv hnv => splitOnceAt_append nv.2 (heq nv hnv))

theorem insertHeader_not_mem : ∀ {m : List (Bytes × Bytes)} (k v : Bytes),
    k ∉ m.map Prod.fst → insertHeader m k v = m ++ [(k, v)]
  | [], k, v, _ => rfl
  | (n, w) :: t, k, v, h => by
    simp only [List.map_cons, List.mem_cons, not_or] at h
    rw [insertHeader, if_neg (fun he => h.1 he.symm),
      insertHeader_not_mem k v h.2, List.cons_append]

theorem collectHeaders_aux : ∀ (l acc : List (Bytes × Bytes)),
    ((acc ++ l).map Prod.fst).Nodup →
    l.foldl (fun m nv => insertHeader m nv.1 nv.2) acc = acc ++ l
  | [], acc, _ => by simp
  | nv :: t, acc, h => by
    have hk : nv.1 ∉ acc.map Prod.fst := by
      rw [List.map_append, List.nodup_append] at h
      intro hm
      exact h.2.2 hm (by simp)
    rw [List.foldl_cons, insertHeader_not_mem nv.1 nv.2 hk]
    have h' : (((acc ++ [nv]) ++ t).map Prod.fst).Nodup := by
      rw [List.append_assoc, List.singleton_append]
      exact h
    rw [collectHeaders_aux t (acc ++ [nv]) h', List.append_assoc, List.singleton_append]

theorem collectHeaders_nodup {l : List (Bytes × Bytes)}
    (h : (l.map Prod.fst).Nodup) : collectHeaders l = l := by
  rw [collectHeaders, collectHeaders_aux l [] (by simpa using h), List.nil_append]

/-! ## Lemmas about the separator scan -/

theorem hasSepPair_cons_of_ne {d : Byte} (hd : d ≠ 58) : ∀ (b : Bytes),
    hasSepPair (d :: b) = hasSepPair b
  | [] => by simp [hasSepPair]
  | e :: t => by simp [hasSepPair, hd]

theorem hasSepPair_append_cons {d : Byte} (hd : d ≠ 58) :
    ∀ {a : Bytes} (b : Bytes), hasSepPair a = false → hasSepPair b = false →
    hasSepPair (a ++ d :: b) = false
  | [], b, _, hb => by rw [List.nil_append, hasSepPair_cons_of_ne hd b]; exact hb
  | [x], b, _, hb => by
    rw [List.cons_append, List.nil_append]
    simp [hasSepPair, hd, hasSepPair_cons_of_ne hd b, hb]
  | x :: y :: t, b, ha, hb => by
    simp only [hasSepPair, Bool.or_eq_false_iff] at ha
    have hrec := hasSepPair_append_cons hd (a := y :: t) b ha.2 hb
    rw [List.cons_append] at hrec
    rw [List.cons_append, List.cons_append]
    simp [hasSepPair, ha.1, hrec]

theorem hasSepPair_rawLine {nv : Bytes × Bytes}
    (h1 : hasSepPair nv.1 = false) (h2 : hasSepPair nv.2 = false) :
    hasSepPair (rawLine nv) = false :=
  hasSepPair_append_cons (by simp [HEADER_NAME_VALUE_SEPARATOR]) nv.2 h1 h2

theorem hasSepPair_headerSection : ∀ {hs : List (Bytes × Bytes)},
    (∀ nv ∈ hs, hasSepPair nv.1 = false ∧ hasSepPair nv.2 = false) →
    hasSepPair (headerSection hs) = false
  | [], _ => rfl
  | nv :: t, h => by
    have hnv := h nv (List.mem_cons_self nv t)
    have ht := hasSepPair_headerSection (fun x hx => h x (List.mem_cons_of_mem nv hx))
    rw [headerSection_cons]
    exact hasSepPair_append_cons (by simp [NEWLINE]) _
      (hasSepPair_rawLine hnv.1 hnv.2) ht

theorem headerSection_getLast_ne (hs : List (Bytes × Bytes)) :
    (headerSection hs).getLast? ≠ some 58 := by
  match hs with
  | [] => simp [headerSection]
  | nv :: t =>
    rw [headerSection_cons, List.getLast?_append]
    match hh : headerSection t with
    | [] => simp [NEWLINE]
    | c :: t' =>
      rw [List.getLast?_cons_cons]
      have := headerSection_getLast_ne t
      rw [hh] at this
      match hg : (c :: t').getLast? with
      | none => exact absurd hg getLast?_cons_ne_nil
      | some x =>
        rw [hg] at this
        simpa using this

theorem findSep_append : ∀ {a : Bytes} (r : Bytes), hasSepPair a = false →
    a.getLast? ≠ some 58 → findSep (a ++ 58 :: 58 :: r) = some a.length
  | [], r, _, _ => by simp [findSep]
  | [x], r, _, hl => by
    have hx : ¬(x = 58) := by simpa using hl
    simp [findSep, hx]
  | x :: y :: t, r, hp, hl => by
    simp only [hasSepPair, Bool.or_eq_false_iff] at hp
    rw [List.getLast?_cons_cons] at hl
    have hrec := findSep_append (a := y :: t) r hp.2 hl
    rw [List.cons_append] at hrec
    rw [List.cons_append, List.cons_append]
    rw [findSep]
    rw [if_neg (by simp [hp.1])]
    rw [hrec]
    simp

/-! ## UTF-8 validity of serialized header sections -/

theorem validUtf8_rawLine {nv : Bytes × Bytes}
    (hn : validUtf8 nv.1 = true) (hv : validUtf8 nv.2 = true) :
    validUtf8 (rawLine nv) = true := by
  rw [rawLine, validUtf8_append _ _ hn,
    validUtf8_cons_ascii _ (by simp [HEADER_NAME_VALUE_SEPARATOR])]
  exact hv

theorem validUtf8_headerLine {nv : Bytes × Bytes}
    (hn : validUtf8 nv.1 = true) (hv : validUtf8 nv.2 = true) :
    validUtf8 (headerLine nv) = true := by
  rw [headerLine, validUtf8_append _ _ (validUtf8_rawLine hn hv)]
  decide

theorem validUtf8_headerSection : ∀ {hs : List (Bytes × Bytes)},
    (∀ nv ∈ hs, validUtf8 nv.1 = true ∧ validUtf8 nv.2 = true) →
    validUtf8 (headerSection hs) = true
  | [], _ => rfl
  | nv :: t, h => by
    have hnv := h nv (List.mem_cons_self nv t)
    have ht := validUtf8_headerSection (fun x hx => h x (List.mem_cons_of_mem nv hx))
    have : headerSection (nv :: t) = headerLine nv ++ headerSection t := by
      simp [headerSection]
    rw [this, validUtf8_append _ _ (validUtf8_headerLine hnv.1 hnv.2)]
    exact ht

/-- Conditions on one header entry under which encoding and decoding are
mutually inverse: the name and value are UTF-8 text (they are Rust
`String`s), neither embeds the two-byte section separator, the name
contains neither the `=` header separator nor a newline, and the value
contains no newline and does not end in a carriage return. -/
def goodHeader (nv : Bytes × Bytes) : Prop :=
  validUtf8 nv.1 = true ∧ validUtf8 nv.2 = true ∧
  hasSepPair nv.1 = false ∧ hasSepPair nv.2 = false ∧
  HEADER_NAME_VALUE_SEPARATOR ∉ nv.1 ∧
  NEWLINE ∉ nv.1 ∧ NEWLINE ∉ nv.2 ∧
  nv.2.getLast? ≠ some CARRIAGE_RETURN

instance (nv : Bytes × Bytes) : Decidable (goodHeader nv) := by
  unfold goodHeader; infer_instance

/-! ## Lemmas: first-occurrence characterization of the separator scan,
separator counting, the registry, and the send loop -/


theorem sepAt_single (x : Byte) (i : Nat) : ¬ sepAt [x] i := by
  intro h
  rcases h with ⟨h1, h2⟩
  match i with
  | 0 => simp at h2
  | n + 1 => simp at h1

theorem sepAt_zero {x y : Byte} {t : Bytes} : sepAt (x :: y :: t) 0 ↔ x = 58 ∧ y = 58 := by
  simp [sepAt]

theorem sepAt_cons_succ {x : Byte} {t : Bytes} {i : Nat} :
    sepAt (x :: t) (i + 1) ↔ sepAt t i := by
  simp [sepAt]

theorem findSep_none_iff : ∀ {b : Bytes}, findSep b = none ↔ ∀ i, ¬ sepAt b i
  | [] => by
    simp only [findSep, true_iff]
    intro i h
    rcases h with ⟨h1, _⟩
    simp at h1
  | [x] => by
    simp only [findSep, true_iff]
    exact sepAt_single x
  | x :: y :: t => by
    rw [findSep]
    split_ifs with hxy
    · simp only [Bool.and_eq_true, decide_eq_true_eq] at hxy
      constructor
      · intro h; simp at h
      · intro hall
        exact absurd (sepAt_zero.mpr hxy) (hall 0)
    · rw [Option.map_eq_none']
      rw [findSep_none_iff]
      constructor
      · intro h i
        match i with
        | 0 =>
          intro hs
          exact hxy (by simpa using sepAt_zero.mp hs)
        | n + 1 =>
          rw [sepAt_cons_succ]
          exact h n
      · intro hall i
        exact fun hs => hall (i + 1) (sepAt_cons_succ.mpr hs)

theorem findSep_some : ∀ {b : Bytes} {i : Nat}, findSep b = some i →
    sepAt b i ∧ ∀ j < i, ¬ sepAt b j
  | [], i, h => by simp [findSep] at h
  | [x], i, h => by simp [findSep] at h
  | x :: y :: t, i, h => by
    rw [findSep] at h
    split_ifs at h with hxy
    · cases h
      simp only [Bool.and_eq_true, decide_eq_true_eq] at hxy
      exact ⟨sepAt_zero.mpr hxy, by omega⟩
    · rw [Option.map_eq_some'] at h
      obtain ⟨k, hk, hik⟩ := h
      obtain ⟨hsep, hmin⟩ := findSep_some hk
      subst hik
      refine ⟨sepAt_cons_succ.mpr hsep, ?_⟩
      intro j hj
      match j with
      | 0 =>
        intro hs
        exact hxy (by simpa using sepAt_zero.mp hs)
      | m + 1 =>
        rw [sepAt_cons_succ]
        exact hmin m (by omega)

theorem findSep_eq_of_first {b : Bytes} {i : Nat} (hi : sepAt b i)
    (hmin : ∀ j < i, ¬ sepAt b j) : findSep b = some i := by
  match h : findSep b with
  | none => exact absurd hi (findSep_none_iff.mp h i)
  | some j =>
    obtain ⟨hsep, hmin'⟩ := findSep_some h
    rcases Nat.lt_trichotomy i j with hlt | heq | hgt
    · exact absurd hi (hmin' i hlt)
    · rw [heq]
    · exact absurd hsep (hmin j hgt)

theorem countSep_cons_of_ne {x : Byte} (hx : ¬ x = 58) : ∀ (b : Bytes),
    countSep (x :: b) = countSep b
  | [] => rfl
  | y :: t => by simp [countSep, hx]

theorem countSep_cons_cons_of_pair {x y : Byte} (b : Bytes)
    (h : (decide (x = 58) && decide (y = 58)) = false) :
    countSep (x :: y :: b) = countSep (y :: b) := by
  simp only [countSep, h]
  simp

theorem countSep_eq_zero : ∀ {a : Bytes}, hasSepPair a = false → countSep a = 0
  | [], _ => rfl
  | [x], _ => rfl
  | x :: y :: t, h => by
    simp only [hasSepPair, Bool.or_eq_false_iff] at h
    simp only [countSep]
    rw [if_neg (by simp [h.1]), countSep_eq_zero h.2]

theorem countSep_append_sep : ∀ {a : Bytes} (p : Bytes),
    hasSepPair a = false → a.getLast? ≠ some 58 →
    hasSepPair p = false → p.head? ≠ some 58 →
    countSep (a ++ 58 :: 58 :: p) = 1
  | [], p, _, _, hp, hh => by
    rw [List.nil_append]
    match p with
    | [] => rfl
    | q :: t =>
      have hq : ¬(q = 58) := by simpa using hh
      have h1 : countSep (58 :: q :: t) = countSep (q :: t) :=
        countSep_cons_cons_of_pair t (by simp [hq])
      have h2 : countSep (q :: t) = 0 := countSep_eq_zero hp
      rw [countSep, if_pos (by simp), h1, h2]
  | [x], p, _, hl, hp, hh => by
    have hx : ¬(x = 58) := by simpa using hl
    rw [List.cons_append, List.nil_append]
    have hrec := countSep_append_sep (a := []) p rfl (by simp) hp hh
    rw [List.nil_append] at hrec
    rw [countSep_cons_cons_of_pair _ (by simp [hx])]
    exact hrec
  | x :: y :: t, p, ha, hl, hp, hh => by
    simp only [hasSepPair, Bool.or_eq_false_iff] at ha
    rw [List.getLast?_cons_cons] at hl
    have hrec := countSep_append_sep (a := y :: t) p ha.2 hl hp hh
    rw [List.cons_append] at hrec
    rw [List.cons_append, List.cons_append]
    rw [countSep_cons_cons_of_pair _ ha.1]
    exact hrec


theorem lookupPeer_insertPeer_self : ∀ (m : PeerMap) (id : PeerID) (v : PeerAddr),
    lookupPeer (insertPeer m id v) id = some v
  | [], id, v => by simp [insertPeer, lookupPeer]
  | (k, w) :: t, id, v => by
    by_cases hk : k = id
    · rw [insertPeer, if_pos hk, lookupPeer, if_pos rfl]
    · rw [insertPeer, if_neg hk, lookupPeer, if_neg hk, lookupPeer_insertPeer_self t id v]

theorem mem_keys_insertPeer {x : PeerID} : ∀ {m : PeerMap} {id : PeerID} {v : PeerAddr},
    x ∈ (insertPeer m id v).map Prod.fst → x = id ∨ x ∈ m.map Prod.fst
  | [], id, v, h => by
    simp only [insertPeer, List.map_cons, List.map_nil, List.mem_singleton] at h
    exact .inl h
  | (k, w) :: t, id, v, h => by
    by_cases hk : k = id
    · rw [insertPeer, if_pos hk] at h
      rcases List.mem_cons.mp h with h1 | h2
      · exact .inl h1
      · exact .inr (by simp only [List.map_cons, List.mem_cons]; right; simpa using h2)
    · rw [insertPeer, if_neg hk] at h
      rcases List.mem_cons.mp h with h1 | h2
      · exact .inr (by simp [h1])
      · rcases mem_keys_insertPeer h2 with h3 | h4
        · exact .inl h3
        · exact .inr (by simp only [List.map_cons, List.mem_cons]; right; exact h4)

theorem countPeer_zero_of_not_mem {m : PeerMap} {id : PeerID}
    (h : id ∉ m.map Prod.fst) : countPeer m id = 0 := by
  rw [countPeer, List.countP_eq_zero]
  intro kv hkv
  simp only [decide_eq_true_eq]
  intro he
  exact h (he ▸ List.mem_map_of_mem Prod.fst hkv)

theorem countPeer_insertPeer : ∀ {m : PeerMap} (id : PeerID) (v : PeerAddr),
    (m.map Prod.fst).Nodup → countPeer (insertPeer m id v) id = 1
  | [], id, v, _ => by simp [insertPeer, countPeer, List.countP_cons]
  | (k, w) :: t, id, v, h => by
    simp only [List.map_cons, List.nodup_cons] at h
    by_cases hk : k = id
    · rw [insertPeer, if_pos hk, countPeer, List.countP_cons]
      have h0 : countPeer t id = 0 := countPeer_zero_of_not_mem (hk ▸ h.1)
      rw [countPeer] at h0
      simp [h0]
    · rw [insertPeer, if_neg hk, countPeer, List.countP_cons]
      have hrec := countPeer_insertPeer (m := t) id v h.2
      rw [countPeer] at hrec
      simp [hrec, hk]

theorem insertPeer_nodup : ∀ {m : PeerMap} (id : PeerID) (v : PeerAddr),
    (m.map Prod.fst).Nodup → ((insertPeer m id v).map Prod.fst).Nodup
  | [], id, v, _ => by simp [insertPeer]
  | (k, w) :: t, id, v, h => by
    simp only [List.map_cons, List.nodup_cons] at h
    by_cases hk : k = id
    · rw [insertPeer, if_pos hk]
      simp only [List.map_cons, List.nodup_cons]
      exact ⟨hk ▸ h.1, h.2⟩
    · rw [insertPeer, if_neg hk]
      simp only [List.map_cons, List.nodup_cons]
      refine ⟨?_, insertPeer_nodup id v h.2⟩
      intro hmem
      rcases mem_keys_insertPeer hmem with h1 | h2
      · exact hk h1
      · exact h.1 h2

theorem sendLoop_all_ok {env : SendEnv} : ∀ {addrs : List PeerAddr},
    (∀ a ∈ addrs, env.net a = none) → sendLoop env addrs = (.ok, addrs)
  | [], _ => rfl
  | a :: t, h => by
    rw [sendLoop, h a (List.mem_cons_self a t)]
    rw [sendLoop_all_ok (fun x hx => h x (List.mem_cons_of_mem a hx))]

theorem sendLoop_first_err {env : SendEnv} {e : IoErr} :
    ∀ (pre : List PeerAddr) (a : PeerAddr) (post : List PeerAddr),
    (∀ x ∈ pre, env.net x = none) → env.net a = some e →
    sendLoop env (pre ++ a :: post) = (.err e, pre ++ [a])
  | [], a, post, _, ha => by rw [List.nil_append, sendLoop, ha]; rfl
  | x :: t, a, post, hpre, ha => by
    rw [List.cons_append, sendLoop, hpre x (List.mem_cons_self x t)]
    rw [sendLoop_first_err t a post (fun y hy => hpre y (List.mem_cons_of_mem x hy)) ha]
    rfl

theorem sendLoop_ok_iff {env : SendEnv} : ∀ (addrs : List PeerAddr),
    (sendLoop env addrs).1 = .ok ↔ ∀ a ∈ addrs, env.net a = none
  | [] => by simp [sendLoop]
  | a :: t => by
    rw [sendLoop]
    match hn : env.net a with
    | some e => simp [hn]
    | none => simp [hn, sendLoop_ok_iff t]


/-! ## The claims -/

/-- C1 (corrected): encode/decode round-trip for the packet codec. For
every header map (distinct names) whose entries satisfy `goodHeader`
— UTF-8 names/values with no embedded section-separator sequence, names
without `=` or newline, values without newline and not ending in a
carriage return — and every byte payload, `Packet::from_bytes` applied to
`Packet::as_bytes` returns exactly the original headers and payload. -/
theorem C1_packet_roundtrip (hs : List (Bytes × Bytes)) (p : Bytes)
    (hnodup : (hs.map Prod.fst).Nodup)
    (hgood : ∀ nv ∈ hs, goodHeader nv) :
    Packet.from_bytes (Packet.as_bytes { headers := hs, payload := some p }) =
      .ok { headers := hs, payload := some p } := by
  have hbytes : Packet.as_bytes { headers := hs, payload := some p } =
      headerSection hs ++ 58 :: 58 :: p := by
    rw [Packet.as_bytes]
    simp [SECTIONS_SEPARATOR, List.append_assoc]
  have hfind : findSep (headerSection hs ++ 58 :: 58 :: p) =
      some (headerSection hs).length :=
    findSep_append p
      (hasSepPair_headerSection (fun nv h => ⟨(hgood nv h).2.2.1, (hgood nv h).2.2.2.1⟩))
      (headerSection_getLast_ne hs)
  rw [hbytes, Packet.from_bytes, hfind]
  simp only
  rw [List.take_left]
  rw [if_pos (validUtf8_headerSection (fun nv h => ⟨(hgood nv h).1, (hgood nv h).2.1⟩))]
  rw [parsedHeaderLines_headerSection
    (fun nv h => ⟨(hgood nv h).2.2.2.2.2.1, (hgood nv h).2.2.2.2.2.2.1⟩)
    (fun nv h => (hgood nv h).2.2.2.2.2.2.2)
    (fun nv h => (hgood nv h).2.2.2.2.1)]
  rw [collectHeaders_nodup hnodup]
  rw [if_pos (by simp)]
  have hdrop : (headerSection hs ++ 58 :: 58 :: p).drop ((headerSection hs).length + 2) = p := by
    have : headerSection hs ++ 58 :: 58 :: p = (headerSection hs ++ [58, 58]) ++ p := by
      simp [List.append_assoc]
    rw [this]
    exact List.drop_left' (by simp)
  rw [hdrop]

/-- C1 witness: the round trip evaluated at the header map
`{"id" -> "42"}` and the payload `[1, 2, 255]`. -/
theorem C1_packet_roundtrip_witness :
    Packet.from_bytes (Packet.as_bytes
      { headers := [([105, 100], [52, 50])], payload := some [1, 2, 255] }) =
      .ok { headers := [([105, 100], [52, 50])], payload := some [1, 2, 255] } :=
  C1_packet_roundtrip [([105, 100], [52, 50])] [1, 2, 255] (by decide) (by decide)

/-- C1 counterexample: the header map `{"a" -> "b\nc"}` has no embedded
section-separator sequence in any name or value, yet decoding its
encoding (with empty payload) yields the different header map
`{"a" -> "b"}` — the round-trip law as stated by the claim fails. -/
theorem C1_packet_roundtrip_counterexample :
    (∀ nv ∈ [(([97] : Bytes), ([98, 10, 99] : Bytes))],
      hasSepPair nv.1 = false ∧ hasSepPair nv.2 = false) ∧
    Packet.from_bytes (Packet.as_bytes
      { headers := [([97], [98, 10, 99])], payload := some [] }) =
      .ok { headers := [([97], [98])], payload := some [] } ∧
    ([([97], [98])] : List (Bytes × Bytes)) ≠ [([97], [98, 10, 99])] :=
  ⟨by decide, by rfl, by decide⟩

/-- C4 (confirmed): `Packet::from_bytes` fails with
`MissingSectionsSeparator` exactly when no two consecutive input bytes
equal the section separator; and when the separator first occurs at
index `i`, decoding does not return `MissingSectionsSeparator` but splits
there: headers are parsed from the bytes before index `i` (subject to the
UTF-8 check) and the payload is everything after index `i + 1`. -/
theorem C4_missing_separator_iff (b : Bytes) :
    (Packet.from_bytes b = .error .missingSectionsSeparator ↔ ∀ i, ¬ sepAt b i) ∧
    (∀ i, sepAt b i → (∀ j < i, ¬ sepAt b j) →
      Packet.from_bytes b ≠ .error .missingSectionsSeparator ∧
      Packet.from_bytes b =
        (if validUtf8 (b.take i) then
          .ok { headers := collectHeaders (parsedHeaderLines (b.take i)),
                payload := some (b.drop (i + 2)) }
         else .error .invalidUtf8)) := by
  constructor
  · match hf : findSep b with
    | none =>
      simp only [Packet.from_bytes, hf]
      simp only [true_iff]
      exact findSep_none_iff.mp hf
    | some i =>
      simp only [Packet.from_bytes, hf]
      constructor
      · intro h
        split_ifs at h
        all_goals simp at h
      · intro hall
        exact absurd (findSep_some hf).1 (hall i)
  · intro i hi hmin
    have hf : findSep b = some i := findSep_eq_of_first hi hmin
    have hlen : i + 2 ≤ b.length := by
      have h2 := hi.2
      have : i + 1 < b.length := by
        by_contra hcon
        rw [List.getElem?_eq_none (by omega)] at h2
        exact absurd h2 (by simp)
      omega
    simp only [Packet.from_bytes, hf, if_pos hlen]
    constructor
    · split_ifs
      all_goals simp
    · trivial

/-- C4 witness: the input `[97, 58, 58, 7]` has its first separator
window at index 1, and decoding splits there. -/
theorem C4_missing_separator_iff_witness :
    Packet.from_bytes [97, 58, 58, 7] ≠ .error .missingSectionsSeparator ∧
    Packet.from_bytes [97, 58, 58, 7] =
      (if validUtf8 ([97, 58, 58, 7].take 1) then
        .ok { headers := collectHeaders (parsedHeaderLines ([97, 58, 58, 7].take 1)),
              payload := some ([97, 58, 58, 7].drop 3) }
       else .error .invalidUtf8) :=
  (C4_missing_separator_iff [97, 58, 58, 7]).2 1 (by decide) (by decide)

/-- C5 (corrected): the serialized form of a packet contains exactly one
occurrence of the section-separator sequence, provided the header names
and values contain no embedded separator sequence and the payload neither
contains the separator sequence nor begins with the separator byte. -/
theorem C5_single_separator (p : Packet)
    (hhdr : ∀ nv ∈ p.headers, hasSepPair nv.1 = false ∧ hasSepPair nv.2 = false)
    (hpl : ∀ pl, p.payload = some pl → hasSepPair pl = false ∧ pl.head? ≠ some 58) :
    countSep (Packet.as_bytes p) = 1 := by
  obtain ⟨hs, pay⟩ := p
  have hsec := hasSepPair_headerSection hhdr
  match pay with
  | none =>
    have hbytes : Packet.as_bytes { headers := hs, payload := none } =
        headerSection hs ++ 58 :: 58 :: [] := by
      rw [Packet.as_bytes]
      simp [SECTIONS_SEPARATOR, List.append_assoc]
    rw [hbytes]
    exact countSep_append_sep [] hsec (headerSection_getLast_ne hs) rfl (by simp)
  | some pl =>
    have hp := hpl pl rfl
    have hbytes : Packet.as_bytes { headers := hs, payload := some pl } =
        headerSection hs ++ 58 :: 58 :: pl := by
      rw [Packet.as_bytes]
      simp [SECTIONS_SEPARATOR, List.append_assoc]
    rw [hbytes]
    exact countSep_append_sep pl hsec (headerSection_getLast_ne hs) hp.1 hp.2

/-- C5 witness: a packet with one separator-free header and the payload
`[1, 58]` serializes with exactly one separator occurrence. -/
theorem C5_single_separator_witness :
    countSep (Packet.as_bytes { headers := [([97], [98])], payload := some [1, 58] }) = 1 :=
  C5_single_separator { headers := [([97], [98])], payload := some [1, 58] }
    (by decide) (by decide)

/-- C5 counterexample: the claim quantifies over all payloads, including
ones containing the separator bytes; the packet with no headers and
payload `[58, 58]` serializes to `[58, 58, 58, 58]`, which contains three
separator windows, not one. -/
theorem C5_single_separator_counterexample :
    countSep (Packet.as_bytes { headers := [], payload := some [58, 58] }) = 3 ∧
    (3 : Nat) ≠ 1 :=
  ⟨by decide, by decide⟩

/-- C2 (corrected): `send_file_to_all` aborts at the first failing
address. When the path is a regular file and it reads successfully:
the call returns success iff every address's connect/write succeeds, in
which case every address is attempted; and when the addresses are a
prefix of successes followed by a first failing address, the call returns
that single address's error having attempted only the prefix and the
failing address — the remaining addresses are not attempted and no
aggregate error is built. -/
theorem C2_send_aborts_on_first_failure (env : SendEnv) (addrs : List PeerAddr)
    (path : Bytes) (contents : Bytes)
    (hfile : env.is_file path = true)
    (hread : env.read_file path = .ok contents) :
    ((send_file_to_all env addrs path).1 = .ok ↔ ∀ a ∈ addrs, env.net a = none) ∧
    ((∀ a ∈ addrs, env.net a = none) →
      send_file_to_all env addrs path = (.ok, addrs)) ∧
    (∀ pre a post e, addrs = pre ++ a :: post →
      (∀ x ∈ pre, env.net x = none) → env.net a = some e →
      send_file_to_all env addrs path = (.err e, pre ++ [a])) := by
  have hred : send_file_to_all env addrs path = sendLoop env addrs := by
    rw [send_file_to_all, if_pos hfile, hread]
  refine ⟨?_, ?_, ?_⟩
  · rw [hred]
    exact sendLoop_ok_iff addrs
  · intro h
    rw [hred]
    exact sendLoop_all_ok h
  · intro pre a post e heq hpre ha
    rw [hred, heq]
    exact sendLoop_first_err pre a post hpre ha

/-- C2 witness: with two addresses that both succeed, the call returns
success having attempted both. -/
theorem C2_send_aborts_on_first_failure_witness :
    send_file_to_all
      { is_file := fun _ => true, read_file := fun _ => .ok [1, 2, 3],
        net := fun _ => none }
      [{ ip := .v4 10 0 0 1, port := 25802 }, { ip := .v4 10 0 0 2, port := 25802 }]
      [97] =
      (.ok, [{ ip := .v4 10 0 0 1, port := 25802 }, { ip := .v4 10 0 0 2, port := 25802 }]) :=
  (C2_send_aborts_on_first_failure
    { is_file := fun _ => true, read_file := fun _ => .ok [1, 2, 3], net := fun _ => none }
    [{ ip := .v4 10 0 0 1, port := 25802 }, { ip := .v4 10 0 0 2, port := 25802 }]
    [97] [1, 2, 3] rfl rfl).2.1 (by decide)

/-- C2 counterexample: with two addresses where the first refuses the
connection and the second would succeed, the call stops after the first
address — the second address is never attempted (the attempt trace is
only the first address) and the result is that single connection error,
not an aggregate naming the failed address while the other receives the
file. -/
theorem C2_attempt_all_counterexample :
    send_file_to_all
      { is_file := fun _ => true, read_file := fun _ => .ok [1, 2, 3],
        net := fun a => if a = { ip := .v4 10 0 0 1, port := 25802 } then
          some .connectionRefused else none }
      [{ ip := .v4 10 0 0 1, port := 25802 }, { ip := .v4 10 0 0 2, port := 25802 }]
      [97] =
      (.err .connectionRefused, [{ ip := .v4 10 0 0 1, port := 25802 }]) ∧
    ({ ip := .v4 10 0 0 2, port := 25802 } : PeerAddr) ∉
      [({ ip := .v4 10 0 0 1, port := 25802 } : PeerAddr)] :=
  ⟨by decide, by decide⟩

/-- C6 (corrected): when the path is not a regular file,
`send_file_to_all` (and `send_file_to`) does not return an error to the
caller: `assert!(path.is_file())` panics, before any connection attempt
(the attempt trace is empty). -/
theorem C6_not_a_file_panics (env : SendEnv) (addrs : List PeerAddr)
    (addr : PeerAddr) (path : Bytes)
    (h : env.is_file path = false) :
    send_file_to_all env addrs path = (.panicked, []) ∧
    send_file_to env addr path = (.panicked, []) := by
  constructor
  · rw [send_file_to_all, if_neg (by simp [h])]
  · rw [send_file_to, send_file_to_all, if_neg (by simp [h])]

/-- C6 witness: a concrete environment whose `is_file` check fails. -/
theorem C6_not_a_file_panics_witness :
    send_file_to_all
      { is_file := fun _ => false, read_file := fun _ => .ok [],
        net := fun _ => none }
      [{ ip := .v4 10 0 0 1, port := 25802 }] [97] = (.panicked, []) ∧
    send_file_to
      { is_file := fun _ => false, read_file := fun _ => .ok [],
        net := fun _ => none }
      { ip := .v4 10 0 0 1, port := 25802 } [97] = (.panicked, []) :=
  C6_not_a_file_panics
    { is_file := fun _ => false, read_file := fun _ => .ok [], net := fun _ => none }
    [{ ip := .v4 10 0 0 1, port := 25802 }] { ip := .v4 10 0 0 1, port := 25802 }
    [97] rfl

/-- C6 counterexample: on a non-file path the call's outcome is a panic,
which is not a returned error of any kind — in particular not a
`NotAFile` error (no such error value exists in the sender's result
type). -/
theorem C6_not_a_file_counterexample :
    (send_file_to_all
      { is_file := fun _ => false, read_file := fun _ => .ok [],
        net := fun _ => none }
      [{ ip := .v4 10 0 0 1, port := 25802 }] [97]).1 = .panicked ∧
    (∀ e : IoErr, SendResult.panicked ≠ .err e) ∧
    SendResult.panicked ≠ .ok :=
  ⟨by decide, fun e h => SendResult.noConfusion h, by decide⟩

/-- C3 (code bug): the discovery listener's per-datagram handling is not
total — `parse_packet` in `src/peer_discoverer/local.rs` calls
`String::from_utf8(...).unwrap()`, so the single-byte datagram `[0xFF]`
(not valid UTF-8) panics instead of being logged, aborting the discovery
loop's thread. -/
theorem C3_invalid_utf8_datagram_panics :
    parse_packet [255] = .error .fromUtf8Unwrap := by rfl

/-- C7 (confirmed): when the decoded announcement's IP is the unspecified
address, the registry entry stored for the announced id carries the
datagram sender's IP and the announced port; when the announced IP is
specified, the announced address is stored unchanged. -/
theorem C7_unspecified_ip_resolution (m : PeerMap) (id : PeerID) (port : Nat)
    (sender_ip : IpAddr) (a : PeerAddr) :
    find_peer_addr_by_id
      (processAnnouncement m { peer_id := id, peer_addr := { ip := .v4 0 0 0 0, port := port } }
        sender_ip) id = some { ip := sender_ip, port := port } ∧
    (a.ip.isUnspecified = false →
      find_peer_addr_by_id (processAnnouncement m { peer_id := id, peer_addr := a } sender_ip)
        id = some a) := by
  constructor
  · rw [processAnnouncement]
    simp only [resolveAnnouncedAddr]
    rw [if_pos (by simp [IpAddr.isUnspecified])]
    exact lookupPeer_insertPeer_self m id _
  · intro ha
    rw [processAnnouncement]
    simp only [resolveAnnouncedAddr]
    rw [if_neg (by simp [ha])]
    exact lookupPeer_insertPeer_self m id a

/-- C7 witness: an announcement carrying `0.0.0.0:25802` received from
sender `192.168.1.20` yields the entry `192.168.1.20:25802`; one carrying
the specified `10.0.0.5:25802` is stored unchanged. -/
theorem C7_unspecified_ip_resolution_witness :
    find_peer_addr_by_id
      (processAnnouncement []
        { peer_id := 42, peer_addr := { ip := .v4 0 0 0 0, port := 25802 } }
        (.v4 192 168 1 20)) 42 =
      some { ip := .v4 192 168 1 20, port := 25802 } ∧
    find_peer_addr_by_id
      (processAnnouncement []
        { peer_id := 42, peer_addr := { ip := .v4 10 0 0 5, port := 25802 } }
        (.v4 192 168 1 20)) 42 =
      some { ip := .v4 10 0 0 5, port := 25802 } :=
  ⟨(C7_unspecified_ip_resolution [] 42 25802 (.v4 192 168 1 20)
      { ip := .v4 10 0 0 5, port := 25802 }).1,
   (C7_unspecified_ip_resolution [] 42 25802 (.v4 192 168 1 20)
      { ip := .v4 10 0 0 5, port := 25802 }).2 (by decide)⟩

/-- C8 (confirmed): registry upsert is last-write-wins. Starting from any
registry with distinct ids, after the listener processes an announcement
mapping an id to address `A` and then one mapping the same id to a
specified address `B`, looking the id up returns `B`, and the registry
holds exactly one entry for that id. -/
theorem C8_last_write_wins (m : PeerMap) (id : PeerID) (A B : PeerAddr)
    (s1 s2 : IpAddr)
    (hB : B.ip.isUnspecified = false)
    (hnodup : (m.map Prod.fst).Nodup) :
    find_peer_addr_by_id
      (processAnnouncement (processAnnouncement m { peer_id := id, peer_addr := A } s1)
        { peer_id := id, peer_addr := B } s2) id = some B ∧
    countPeer
      (processAnnouncement (processAnnouncement m { peer_id := id, peer_addr := A } s1)
        { peer_id := id, peer_addr := B } s2) id = 1 := by
  have hres : resolveAnnouncedAddr B s2 = B := by
    rw [resolveAnnouncedAddr, if_neg (by simp [hB])]
  constructor
  · rw [processAnnouncement]
    simp only [hres]
    exact lookupPeer_insertPeer_self _ id B
  · rw [processAnnouncement, processAnnouncement]
    exact countPeer_insertPeer id _ (insertPeer_nodup id _ hnodup)

/-- C8 witness: upserting `(7, A)` then `(7, B)` into the empty registry
leaves exactly the entry `(7, B)`. -/
theorem C8_last_write_wins_witness :
    find_peer_addr_by_id
      (processAnnouncement
        (processAnnouncement []
          { peer_id := 7, peer_addr := { ip := .v4 10 0 0 1, port := 1 } } (.v4 9 9 9 9))
        { peer_id := 7, peer_addr := { ip := .v4 10 0 0 2, port := 2 } } (.v4 9 9 9 9)) 7 =
      some { ip := .v4 10 0 0 2, port := 2 } ∧
    countPeer
      (processAnnouncement
        (processAnnouncement []
          { peer_id := 7, peer_addr := { ip := .v4 10 0 0 1, port := 1 } } (.v4 9 9 9 9))
        { peer_id := 7, peer_addr := { ip := .v4 10 0 0 2, port := 2 } } (.v4 9 9 9 9)) 7 = 1 :=
  C8_last_write_wins [] 7 { ip := .v4 10 0 0 1, port := 1 } { ip := .v4 10 0 0 2, port := 2 }
    (.v4 9 9 9 9) (.v4 9 9 9 9) (by decide) (by decide)

/-- C9 (confirmed): `get_discovered_peer_ids` and
`get_discovered_peer_addrs` return `none` exactly when the registry is
empty — in particular on the freshly created registry — and otherwise
return snapshots holding precisely all stored ids, respectively all
stored addresses. -/
theorem C9_registry_queries (m : PeerMap) :
    (get_discovered_peer_ids m = none ↔ m = []) ∧
    (get_discovered_peer_addrs m = none ↔ m = []) ∧
    get_discovered_peer_ids newPeerMap = none ∧
    get_discovered_peer_addrs newPeerMap = none ∧
    (m ≠ [] →
      get_discovered_peer_ids m = some (m.map Prod.fst) ∧
      get_discovered_peer_addrs m = some (m.map Prod.snd)) := by
  refine ⟨?_, ?_, rfl, rfl, ?_⟩
  · rw [get_discovered_peer_ids]
    split_ifs with h
    · simp [List.isEmpty_iff.mp h]
    · simp [List.isEmpty_iff] at h
      simp [h]
  · rw [get_discovered_peer_addrs]
    split_ifs with h
    · simp [List.isEmpty_iff.mp h]
    · simp [List.isEmpty_iff] at h
      simp [h]
  · intro h
    constructor
    · rw [get_discovered_peer_ids, if_neg (by simp [List.isEmpty_iff, h])]
    · rw [get_discovered_peer_addrs, if_neg (by simp [List.isEmpty_iff, h])]

/-- C9 witness: on the one-entry registry `[(7, 10.0.0.1:1)]` both
queries return the singleton snapshots, and on the fresh registry both
return `none`. -/
theorem C9_registry_queries_witness :
    get_discovered_peer_ids [(7, { ip := .v4 10 0 0 1, port := 1 })] = some [7] ∧
    get_discovered_peer_addrs [(7, { ip := .v4 10 0 0 1, port := 1 })] =
      some [{ ip := .v4 10 0 0 1, port := 1 }] :=
  (C9_registry_queries [(7, { ip := .v4 10 0 0 1, port := 1 })]).2.2.2.2 (by decide)

/-- C10 (confirmed): `FilePacket`'s accessors never report a missing
header or payload as an error — for every decoded file packet lacking the
`file_name` header, `get_file_name` returns the default `"undefined"`,
and for every file packet without a payload section, `get_contents`
returns the empty byte string. -/
theorem C10_filepacket_defaults :
    (∀ b fp, FilePacket.from_bytes b = .ok fp →
      fp.pkt.get_header fileNameHeader = none →
      fp.get_file_name = undefinedName) ∧
    (∀ fp : FilePacket, fp.pkt.payload = none → fp.get_contents = []) := by
  constructor
  · intro b fp _ hh
    rw [FilePacket.get_file_name, hh]
    rfl
  · intro fp hp
    rw [FilePacket.get_contents, Packet.get_payload, hp]
    rfl

/-- C10 witness: the bytes `"::"` decode to a file packet with no headers
whose file name defaults to `"undefined"`, and a packet without payload
has empty contents. -/
theorem C10_filepacket_defaults_witness :
    FilePacket.get_file_name { pkt := { headers := [], payload := some [] } } =
      undefinedName ∧
    FilePacket.get_contents { pkt := Packet.new } = [] :=
  ⟨C10_filepacket_defaults.1 [58, 58] { pkt := { headers := [], payload := some [] } }
      (by rfl) (by rfl),
   C10_filepacket_defaults.2 { pkt := Packet.new } (by rfl)⟩

end Redtooth
